import Mathlib

/-
Verification of the basic-router dispatch engine (src/index.js) against its
natural-language specification.

The JavaScript source is shallowly embedded: JS strings become `List Char`,
JS objects used as string/number-keyed maps become association lists,
`null`/`undefined` becomes `Option`, and the continuation-driven dispatch
loop `next` inside `Router.prototype.handle` becomes a pure step function
returning an `Outcome` that records whether the terminal callback `done`
is invoked via the `defer` scheduling primitive (`defer(done, e)`), invoked
synchronously (`done(e)`), or whether control is handed to a matched layer.
External collaborators (the Layer matcher and `url.parse`) are black boxes
in the source and are modelled as function parameters/fields, per the spec.
-/

set_option maxHeartbeats 1000000

namespace BasicRouter

/-- JS strings are modelled as lists of characters. -/
abbrev Str := List Char

/-- The control sentinel 'route' (src/index.js line 188). -/
def routeSig : Str := ['r', 'o', 'u', 't', 'e']

/-- The control sentinel 'router' (src/index.js line 206). -/
def routerSig : Str := ['r', 'o', 'u', 't', 'e', 'r']

/-- JS truthiness of an error slot holding `null`/`undefined` (`none`) or a
string value: `null`, `undefined` and the empty string are falsy. -/
def jsTruthy : Option Str → Bool
  | none => false
  | some s => !s.isEmpty

/-- Result of `matchLayer(layer, path)` (src/index.js lines 549-555): the
layer matcher returns a boolean, or a thrown/non-boolean value `e` which the
engine carries as a matching error. -/
inductive MatchResult
  | yes
  | no
  | err (e : Str)

/-- A layer as consumed by the dispatch loop: its matcher (an external black
box, spec section 1) and whether it is backed by a Route (`layer.route`,
truthy exactly for route-backed layers). -/
structure MLayer where
  matchFn : Str → MatchResult
  route : Bool

/-- The engine state visible to one `next` step: the closure variables of
`Router.prototype.handle` (`stack`, `idx`, `removed`, `slashAdded`,
`parentUrl`) together with the session fields the loop reads and writes
(`url`, `baseUrl`, `originalUrl`, `step`). -/
structure HState where
  stack : List MLayer
  idx : Nat
  step : Nat
  url : Str
  baseUrl : Str
  originalUrl : Str
  parentUrl : Str
  removed : Str
  slashAdded : Bool

/-- Result of the matching `while` loop (src/index.js lines 229-259):
the final `idx`, the carried `layerError`, and the selected layer if the
loop exited with `match === true`. -/
structure ScanResult where
  idx : Nat
  layerError : Option Str
  found : Option MLayer

/-- How one `next(err)` step completes (src/index.js lines 187-291):
`deferDone e` models `defer(done, e)` (lines 207, 213), `syncDone e` models
a direct synchronous `done(e)` call (lines 221, 265), and `processLayer`
models falling through to the parameter pipeline and layer invocation for
the selected layer (lines 268-290). -/
inductive Outcome
  | deferDone (e : Option Str)
  | syncDone (e : Option Str)
  | processLayer (l : MLayer) (layerError : Option Str) (path : Str)

/-- Line 188-190: `layerError = err === 'route' ? null : err`. -/
def normErr (arg : Option Str) : Option Str :=
  if arg = some routeSig then none else arg

/-- Lines 192-203: remove the synthesized leading slash and restore the
trimmed prefix and `baseUrl` before resuming the scan. -/
def restoreState (s : HState) : HState :=
  let url1 := if s.slashAdded then s.url.drop 1 else s.url
  let url2 := if s.removed.isEmpty then url1 else s.removed ++ url1
  let base2 := if s.removed.isEmpty then s.baseUrl else s.parentUrl
  { s with url := url2, baseUrl := base2, removed := [], slashAdded := false }

/-- The `while (match !== true && idx < stack.length)` loop of lines
229-259, scanning the suffix of the stack from absolute index `idx`.
Each branch mirrors a source line:
* `idx < session.step` (line 236) does `continue`; since `continue`
  re-evaluates the `while` condition, a layer in this skip region whose
  match is exactly `true` terminates the loop and is selected;
* `typeof match !== 'boolean'` (line 240) folds the non-boolean result
  into `layerError = layerError || match` (JS `||`, so a falsy carried
  error is replaced);
* `match !== true` (line 245) continues;
* `!route` (line 249) lets the loop condition exit with this layer;
* a route-backed layer with a truthy pending error (line 254) sets
  `match = false` and continues. -/
def scanGo (path : Str) (step : Nat) : List MLayer → Nat → Option Str → ScanResult
  | [], idx, le => ⟨idx, le, none⟩
  | l :: rest, idx, le =>
    let idx' := idx + 1
    let m := l.matchFn path
    if idx' < step then
      match m with
      | MatchResult.yes => ⟨idx', le, some l⟩
      | _ => scanGo path step rest idx' le
    else
      let le' := match m with
        | MatchResult.err e => if jsTruthy le then le else some e
        | _ => le
      match m with
      | MatchResult.yes =>
        if l.route then
          if jsTruthy le' then scanGo path step rest idx' le'
          else ⟨idx', le', some l⟩
        else ⟨idx', le', some l⟩
      | _ => scanGo path step rest idx' le'

/-- One invocation of the continuation `next(err)` (src/index.js lines
187-291), as a pure step. `gp` is `getPathname` (lines 533-539), a black
box around `url.parse` that yields `none` when parsing throws. The
function returns the updated engine state and how the step completed. -/
def next (gp : Str → Option Str) (s0 : HState) (arg : Option Str) :
    HState × Outcome :=
  let layerError := normErr arg
  let s := restoreState s0
  if layerError = some routerSig then
    (s, Outcome.deferDone none)
  else if s.stack.length ≤ s.idx then
    (s, Outcome.deferDone layerError)
  else
    match gp s.url with
    | none => (s, Outcome.syncDone layerError)
    | some path =>
      let r := scanGo path s.step (s.stack.drop s.idx) s.idx layerError
      let s' := { s with idx := r.idx, step := r.idx }
      match r.found with
      | none => (s', Outcome.syncDone r.layerError)
      | some l => (s', Outcome.processLayer l r.layerError path)

/-- How `trim_prefix` hands control back (src/index.js lines 293-327):
`reenter e` models the `next(layerError); return` rejection of a match that
splits a path segment (lines 296-300); `handleError e` / `handleRequest`
model `layer.handle_error` / `layer.handle_request` (lines 322-326). -/
inductive TOut
  | reenter (e : Option Str)
  | handleError (e : Option Str)
  | handleRequest
deriving DecidableEq

/-- The source's `trim_prefix(layer, layerError, layerPath, path)` (lines
293-327), acting on the closure state. When the mount path is non-empty it
validates that the character of `path` immediately after the prefix is
absent or '/', trims the prefix from `session.url`, synthesizes a leading
slash if needed (recording it in `slashAdded`), and extends `baseUrl` by
the prefix without its trailing slash. -/
def prefixTrim (s : HState) (layerError : Option Str) (layerPath path : Str) :
    HState × TOut :=
  let out := if jsTruthy layerError then TOut.handleError layerError
             else TOut.handleRequest
  if layerPath.length = 0 then (s, out)
  else
    let midWord : Bool := match path[layerPath.length]? with
      | some ch => decide (ch ≠ '/')
      | none => false
    if midWord then (s, TOut.reenter layerError)
    else
      let removed := layerPath
      let url1 := s.url.drop removed.length
      let needSlash : Bool := !(decide (url1.head? = some '/'))
      let sa := if needSlash then true else s.slashAdded
      let url2 := if needSlash then '/' :: url1 else url1
      let base := s.parentUrl ++
        (if removed.getLast? = some '/' then removed.dropLast else removed)
      ({ s with removed := removed, url := url2, slashAdded := sa,
                baseUrl := base }, out)

/-- Keys of a JS object used as a map: array-index (numeric) keys, as tested
by `0 in params` and written by `params[i + o] = params[i]`, and string
keys. -/
inductive JsKey
  | num (n : Nat)
  | str (s : Str)
deriving DecidableEq

/-- A JS object is modelled as an association list with unique keys (a JS
object cannot bind one key twice); the first entry with a given key is its
binding. `alGet o k` is the read `o[k]`, `none` standing for `undefined`. -/
def alGet {κ α : Type} [DecidableEq κ] : List (κ × α) → κ → Option α
  | [], _ => none
  | p :: o, k => if p.1 = k then some p.2 else alGet o k

/-- The JS `k in o` test. -/
def alHas {κ α : Type} [DecidableEq κ] (o : List (κ × α)) (k : κ) : Bool :=
  (alGet o k).isSome

/-- The JS assignment `o[k] = v`: overwrite the existing binding in place,
else append a new one. -/
def alSet {κ α : Type} [DecidableEq κ] : List (κ × α) → κ → α → List (κ × α)
  | [], k, v => [(k, v)]
  | p :: o, k, v => if p.1 = k then (k, v) :: o else p :: alSet o k v

/-- The JS `delete o[k]`. -/
def alDel {κ α : Type} [DecidableEq κ] : List (κ × α) → κ → List (κ × α)
  | [], _ => []
  | p :: o, k => if p.1 = k then alDel o k else p :: alDel o k

/-- A parameter object: `layer.params` / `session.params`. -/
abbrev Obj := List (JsKey × Str)

/-- `mixin(dst, src)` from utils-merge: copy every key of `src` onto `dst`
(src/index.js lines 569, 573, 599). -/
def mixin (dst src : Obj) : Obj :=
  src.foldl (fun d p => alSet d p.1 p.2) dst

/-- The `while (i in params) i++` gap search of `mergeParams` (lines
580-587), with fuel: an object with `n` entries has at most `n` distinct
numeric keys, so the first gap is found within `length + 1` probes, which
is exactly where the JS loop stops. -/
def firstGapAux (o : Obj) : Nat → Nat → Nat
  | 0, i => i
  | fuel + 1, i => if alHas o (JsKey.num i) then firstGapAux o fuel (i + 1) else i

/-- First numeric index not present in `o` (the JS `while (i in o) i++`). -/
def firstGap (o : Obj) : Nat :=
  firstGapAux o (o.length + 1) 0

/-- One iteration of the re-indexing loop of `mergeParams` (lines 590-596)
at index `j`: `params[j + o] = params[j]`, then `delete params[j]` when
`j < o`. The read `params[j]` is defined at every reachable iteration
(indices below the first gap); an absent read would assign `undefined` in
JS, modelled as leaving the object unchanged. -/
def shiftStep (o j : Nat) (p : Obj) : Obj :=
  let p1 := match alGet p (JsKey.num j) with
    | some v => alSet p (JsKey.num (j + o)) v
    | none => p
  if j < o then alDel p1 (JsKey.num j) else p1

/-- The re-indexing loop of `mergeParams` (lines 589-597): `shiftStep` for
`j` from `i - 1` down to `0`. -/
def shiftLoop (o : Nat) : Nat → Obj → Obj
  | 0, p => p
  | j + 1, p => shiftLoop o j (shiftStep o j p)

/-- `mergeParams(params, parent)` for an object `parent` (src/index.js lines
563-600): copy the parent, and if either side lacks numeric entry `0`,
merge by plain key union with `params` overriding; otherwise offset the
numeric indices of `params` past the parent's first numeric gap before the
union. -/
def mergeParams (params parent : Obj) : Obj :=
  let obj := mixin [] parent
  if !(alHas params (JsKey.num 0)) || !(alHas parent (JsKey.num 0)) then
    mixin obj params
  else
    let i := firstGap params
    let o := firstGap parent
    mixin obj (shiftLoop o i params)

/-- The full `mergeParams`, including the `typeof parent !== 'object' ||
!parent` early return (lines 564-566): `none` models a missing/non-object
parent. -/
def mergeParamsOpt (params : Obj) (parent : Option Obj) : Obj :=
  match parent with
  | none => params
  | some par => mergeParams params par

/-- The per-name cache entry created by `process_params` (lines 387-391):
`called[name] = { error: null, match: paramVal, value: paramVal }`.
`value` becomes `undefined` (`none`) if a callback removes the parameter. -/
structure PCalled where
  error : Option Str
  matchV : Str
  value : Option Str
deriving DecidableEq

/-- A parameter precondition callback, in the synchronous fragment: it may
rewrite `session.params` and then calls its continuation with an optional
error (a synchronous throw is the same as calling back with the error,
lines 412-416). -/
abbrev Cb := Obj → Obj × Option Str

/-- `this.params`: registered precondition callbacks per name; `none` is an
absent entry (`!paramCallbacks`, line 373). `Router.prototype.param` only
ever creates non-empty lists. -/
abbrev Registry := Str → Option (List Cb)

/-- The `called` registry threaded through one dispatch (`paramcalled`,
line 166). -/
abbrev CalledMap := List (Str × PCalled)

/-- Result of one `process_params` call, instrumented with a `trace` that
records one `(name, value)` event for each fresh run of the registered
callbacks for `name` (the `called[name] = {...}; paramCallback()` path,
lines 387-393); cache reuse emits no event. -/
structure PPResult where
  prms : Obj
  called : CalledMap
  err : Option Str
  trace : List (Str × Str)

/-- The cache-hit restore `session.params[name] = paramCalled.value` (line
381); a `none` cached value stands for `undefined`, which reads back as an
absent parameter. -/
def storeOpt (prms : Obj) (name : Str) (v : Option Str) : Obj :=
  match v with
  | some w => alSet prms (JsKey.str name) w
  | none => alDel prms (JsKey.str name)

/-- The `paramCallback(err)` chain of lines 397-417 for one key: update
`paramCalled.value` from the session, stop with a truthy error (storing it,
lines 403-408), stop cleanly when the callbacks are exhausted (line 410),
otherwise run the next callback and continue with whatever it passes to
its continuation. Returns the updated params, cache entry, and the error
handed to `param(err)`. -/
def paramCallbackM (name : Str) :
    Option Str → List Cb → Obj → PCalled → Obj × PCalled × Option Str
  | err, cbs, prms, pc =>
    let pc1 := { pc with value := alGet prms (JsKey.str name) }
    if jsTruthy err then
      (prms, { pc1 with error := err }, err)
    else
      match cbs with
      | [] => (prms, pc1, none)
      | fn :: rest =>
        let r := fn prms
        paramCallbackM name r.2 rest r.1 pc1

/-- A fresh run for key `name` with current value `v` (lines 387-393):
create the cache entry, run the callbacks, store the final entry, emit the
`(name, v)` trace event, and either stop with a truthy error or yield the
state for the next key. -/
def paramFresh (name v : Str) (cbs : List Cb) (prms : Obj) (called : CalledMap)
    (tr : List (Str × Str)) : (Obj × CalledMap × List (Str × Str)) ⊕ PPResult :=
  let pc0 : PCalled := { error := none, matchV := v, value := some v }
  let r := paramCallbackM name none cbs prms pc0
  let called' := alSet called name r.2.1
  let tr' := tr ++ [(name, v)]
  if jsTruthy r.2.2 then Sum.inr ⟨r.1, called', r.2.2, tr'⟩
  else Sum.inl (r.1, called', tr')

/-- The `param(err)` loop over the layer's keys (lines 357-394). For each
name: skip when the parameter value is `undefined` or no callbacks are
registered (line 373); reuse the cache when the cached `match` equals the
current value or a truthy non-'route' error is cached (lines 378-384),
restoring the cached value and stopping if that cached error is truthy;
otherwise run the callbacks freshly. -/
def paramLoopM (registry : Registry) :
    List Str → Obj → CalledMap → List (Str × Str) → PPResult
  | [], prms, called, tr => ⟨prms, called, none, tr⟩
  | name :: restKeys, prms, called, tr =>
    match alGet prms (JsKey.str name), registry name with
    | none, _ => paramLoopM registry restKeys prms called tr
    | some _, none => paramLoopM registry restKeys prms called tr
    | some v, some cbs =>
      match alGet called name with
      | some pc =>
        if decide (pc.matchV = v) ||
            (jsTruthy pc.error && decide (pc.error ≠ some routeSig)) then
          let prms' := storeOpt prms name pc.value
          if jsTruthy pc.error then ⟨prms', called, pc.error, tr⟩
          else paramLoopM registry restKeys prms' called tr
        else
          match paramFresh name v cbs prms called tr with
          | Sum.inr res => res
          | Sum.inl (p, c, t) => paramLoopM registry restKeys p c t
      | none =>
        match paramFresh name v cbs prms called tr with
        | Sum.inr res => res
        | Sum.inl (p, c, t) => paramLoopM registry restKeys p c t

/-- `Router.prototype.process_params(layer, called, session, res, done)`
(lines 336-420), with the layer's captured keys given by name. The empty
fast track (line 343) and the main loop agree on `keys = []`. -/
def process_params (registry : Registry) (keys : List Str) (called : CalledMap)
    (prms : Obj) : PPResult :=
  paramLoopM registry keys prms called []

/-- A JS argument to `Router.prototype.use`: a function value (identified
by a tag), a string, an (arbitrarily nested) array, or any other
non-callable value such as `undefined` or a number. -/
inductive JsArg
  | fnV (n : Nat)
  | strV (s : Str)
  | arrV (args : List JsArg)
  | other

/-- `typeof x === 'function'`. -/
def isFn : JsArg → Bool
  | JsArg.fnV _ => true
  | _ => false

/-- The first-argument drilling of `use` (lines 446-448):
`while (Array.isArray(arg) && arg.length !== 0) arg = arg[0]`. -/
def drill : JsArg → JsArg
  | JsArg.arrV (a :: _) => drill a
  | a => a

mutual

/-- array-flatten of a single value: arrays are flattened recursively,
everything else is kept. -/
def flat1 : JsArg → List JsArg
  | JsArg.arrV xs => flatList xs
  | a => [a]

/-- `flatten(...)` from array-flatten (line 457), flattening nested arrays
to unlimited depth. -/
def flatList : List JsArg → List JsArg
  | [] => []
  | a :: rest => flat1 a ++ flatList rest

end

/-- The layer appended by `use` for one handler (lines 473-481):
`new Layer(path, { sensitive, strict: false, end: false }, fn)` with
`layer.route = undefined`. -/
structure ULayer where
  path : JsArg
  sensitive : Bool
  strict : Bool
  endFlag : Bool
  fn : JsArg
  route : Option Unit

def mkULayer (path : JsArg) (caseS : Bool) (fn : JsArg) : ULayer :=
  { path := path, sensitive := caseS, strict := false, endFlag := false,
    fn := fn, route := none }

/-- The two registration-time `TypeError`s of `use` (lines 459-467). -/
inductive UseErr
  | handlerRequired
  | handlerNotFn
deriving DecidableEq

/-- The validation/append loop of `use` (lines 463-482): handlers are
checked and pushed one at a time; the first non-callable aborts with the
stack as pushed so far. -/
def useLoop (path : JsArg) (caseS : Bool) :
    List JsArg → List ULayer → List ULayer × Option UseErr
  | [], st => (st, none)
  | f :: rest, st =>
    if isFn f then useLoop path caseS rest (st ++ [mkULayer path caseS f])
    else (st, some UseErr.handlerNotFn)

/-- `Router.prototype.use(handler, ...)` (lines 437-485) on a router with
stack `st` and case-sensitivity flag `caseS`: resolve the optional leading
path (default '/'), flatten the handler arguments, fail when none remain,
then validate and append them one at a time. Returns the resulting stack
(including layers pushed before a thrown TypeError) and the error. -/
def useM (caseS : Bool) (st : List ULayer) (args : List JsArg) :
    List ULayer × Option UseErr :=
  let handler := match args with
    | [] => JsArg.other
    | a :: _ => a
  let offsetPath : Nat × JsArg :=
    if isFn handler then (0, JsArg.strV ['/'])
    else if isFn (drill handler) then (0, JsArg.strV ['/'])
    else (1, handler)
  let callbacks := flatList (args.drop offsetPath.1)
  if callbacks.isEmpty then (st, some UseErr.handlerRequired)
  else useLoop offsetPath.2 caseS callbacks st

/-- A purely positionally-indexed parameter object with values `vs` at
numeric keys `k, k+1, ...` — the shape produced by unnamed capture groups. -/
def numObjFrom (k : Nat) : List Str → Obj
  | [] => []
  | v :: vs => (JsKey.num k, v) :: numObjFrom (k + 1) vs

/-- Numeric parameter object with values `vs` at keys `0..vs.length-1`. -/
def numObj (vs : List Str) : Obj := numObjFrom 0 vs

/-- Extensional characterization of the state of `params` after the
re-indexing loop has processed indices `j, j+1, ..., i-1` (counting down
from the first gap `i`): key `t` holds the value moved up from `t - o` when
`t - o` was already processed, is deleted when `t` itself was processed and
`t < o`, and is untouched otherwise. Proved to agree with `shiftLoop` in
`shiftLoop_get`. -/
def shiftGetSpec (p : Obj) (o j t : Nat) : Option Str :=
  if o ≤ t ∧ t - o < j then
    match alGet p (JsKey.num (t - o)) with
    | some v => some v
    | none => alGet p (JsKey.num t)
  else if t < o ∧ t < j then none
  else alGet p (JsKey.num t)

/-! Concrete fixtures used by counterexamples and witnesses. -/

/-- `getPathname` for URLs with no query/fragment: `url.parse(u).pathname`
is `u` itself. -/
def gpId : Str → Option Str := fun u => some u

/-- An engine state with everything empty: the state at the top of a fresh
`handle` call before any layer work. -/
def baseState : HState :=
  { stack := [], idx := 0, step := 0, url := [], baseUrl := [],
    originalUrl := [], parentUrl := [], removed := [], slashAdded := false }

/-- A plain middleware layer whose matcher rejects every path. -/
def noMatchLayer : MLayer := { matchFn := fun _ => MatchResult.no, route := false }

/-- A plain middleware layer whose matcher accepts every path. -/
def yesLayer : MLayer := { matchFn := fun _ => MatchResult.yes, route := false }

/-- A route-backed layer whose matcher accepts every path. -/
def yesRouteLayer : MLayer := { matchFn := fun _ => MatchResult.yes, route := true }

def boomE : Str := ['b', 'o', 'o', 'm']

def slashX : Str := ['/', 'x']

def slashFoo : Str := ['/', 'f', 'o', 'o']

def slashFoobar : Str := ['/', 'f', 'o', 'o', 'b', 'a', 'r']

def slashBar : Str := ['/', 'b', 'a', 'r']

def aV : Str := ['a']

def bV : Str := ['b']

def cV : Str := ['c']

def dV : Str := ['d']

def idS : Str := ['i', 'd']

/-- The state of `use('/foo', handler)` dispatching a request to '/foo':
the mount path matches the whole pathname exactly. -/
def cex4 : HState := { baseState with url := slashFoo, originalUrl := slashFoo }

/-- The state used to witness the amended reconstruction invariant:
a request to '/foo/bar' against mount path '/foo'. -/
def c4wState : HState :=
  { baseState with url := slashFoo ++ slashBar, originalUrl := slashFoo ++ slashBar }

/-- A parameter precondition callback with no effect (calls `next()`). -/
def noopCb : Cb := fun prms => (prms, none)

/-- A registry with one precondition callback registered for name 'id'. -/
def regId : Registry := fun n => if n = idS then some [noopCb] else none

/-- First dispatch step: layer captures id = 'a'. -/
def c6run1 : PPResult := process_params regId [idS] [] [(JsKey.str idS, aV)]

/-- Second step, same dispatch: a later layer captures id = 'b'. -/
def c6run2 : PPResult := process_params regId [idS] c6run1.called [(JsKey.str idS, bV)]

/-- Third step, same dispatch: a later layer captures id = 'a' again. -/
def c6run3 : PPResult := process_params regId [idS] c6run2.called [(JsKey.str idS, aV)]

/-- A cache entry for 'id' as created by an earlier clean run with value 'a'. -/
def pcA : PCalled := { error := none, matchV := aV, value := some aV }

/-- Parent params with non-contiguous numeric keys 0 and 2. -/
def sparseParent : Obj := [(JsKey.num 0, aV), (JsKey.num 2, cV)]

/-- Layer params with contiguous numeric keys 0 and 1. -/
def childParams : Obj := [(JsKey.num 0, bV), (JsKey.num 1, dV)]

/-! Helper lemmas about the dispatch model. -/

theorem restoreState_stack (s : HState) : (restoreState s).stack = s.stack := rfl

theorem restoreState_idx (s : HState) : (restoreState s).idx = s.idx := rfl

theorem restoreState_step (s : HState) : (restoreState s).step = s.step := rfl

/-- A truthy carried error survives the whole scan: `layerError || match`
keeps a truthy `layerError`, and no other branch replaces it. -/
theorem scanGo_layerError_truthy (path : Str) (step : Nat) :
    ∀ (ls : List MLayer) (idx : Nat) (le : Option Str), jsTruthy le = true →
      (scanGo path step ls idx le).layerError = le := by
  intro ls
  induction ls with
  | nil => intro idx le htr; simp [scanGo]
  | cons l rest ih =>
    intro idx le htr
    by_cases hs : idx + 1 < step
    · rcases hm : l.matchFn path with _ | _ | e <;>
        simp [scanGo, hs, hm, ih _ _ htr]
    · rcases hm : l.matchFn path with _ | _ | e
      · by_cases hroute : l.route <;>
          simp [scanGo, hs, hm, htr, hroute, ih _ _ htr]
      · simp [scanGo, hs, hm, ih _ _ htr]
      · simp [scanGo, hs, hm, htr, ih _ _ htr]

/-! Claim theorems. -/

/-- C1, counterexample to the claim as stated. The spec says the terminal
callback is always invoked via a scheduling deferral, including on the "no
match" path. In the code the "no match" completion (line 264-265,
`return done(layerError)`) calls `done` synchronously: with a one-layer
stack whose matcher rejects the path, the step completes as `syncDone`,
not `deferDone`. -/
theorem c1_no_match_sync_cex :
    (next gpId { baseState with stack := [noMatchLayer], url := slashX } none).2
      = Outcome.syncDone none := rfl

/-- C1 (amended): each completion path of `next` invokes the terminal
callback once, but the deferral discipline is split: the 'router' signal
(line 207) and the stack-already-exhausted check (line 213) defer via
`defer(done, e)`, while the unparseable-path (line 221) and
no-match-after-scanning (line 265) completions call `done` synchronously. -/
theorem c1_completion_deferral :
    (∀ (gp : Str → Option Str) (s : HState) (arg : Option Str),
      normErr arg = some routerSig →
      (next gp s arg).2 = Outcome.deferDone none) ∧
    (∀ (gp : Str → Option Str) (s : HState) (arg : Option Str),
      normErr arg ≠ some routerSig → s.stack.length ≤ s.idx →
      (next gp s arg).2 = Outcome.deferDone (normErr arg)) ∧
    (∀ (gp : Str → Option Str) (s : HState) (arg : Option Str),
      normErr arg ≠ some routerSig → s.idx < s.stack.length →
      gp (restoreState s).url = none →
      (next gp s arg).2 = Outcome.syncDone (normErr arg)) ∧
    (∀ (gp : Str → Option Str) (s : HState) (arg : Option Str) (path : Str),
      normErr arg ≠ some routerSig → s.idx < s.stack.length →
      gp (restoreState s).url = some path →
      (scanGo path s.step (s.stack.drop s.idx) s.idx (normErr arg)).found = none →
      (next gp s arg).2 =
        Outcome.syncDone
          (scanGo path s.step (s.stack.drop s.idx) s.idx (normErr arg)).layerError) := by
  refine ⟨?_, ?_, ?_, ?_⟩
  · intro gp s arg h
    simp [next, h]
  · intro gp s arg h hlen
    simp [next, h, restoreState_stack, restoreState_idx, hlen]
  · intro gp s arg h hlt hgp
    have h2 : ¬ (s.stack.length ≤ s.idx) := by omega
    simp [next, h, restoreState_stack, restoreState_idx, h2, hgp]
  · intro gp s arg path h hlt hgp hscan
    have h2 : ¬ (s.stack.length ≤ s.idx) := by omega
    simp [next, h, restoreState_stack, restoreState_idx, restoreState_step,
      h2, hgp, hscan]

/-- C1, witness for the amended theorem: a concrete no-match dispatch
completes synchronously with the carried error. -/
theorem c1_completion_deferral_w :
    (next gpId { baseState with stack := [noMatchLayer], url := slashX }
        (some boomE)).2
      = Outcome.syncDone (scanGo slashX 0 [noMatchLayer] 0 (some boomE)).layerError := by
  simpa using c1_completion_deferral.2.2.2 gpId
    { baseState with stack := [noMatchLayer], url := slashX } (some boomE) slashX
    (by decide) (by decide) rfl rfl

/-- C2, counterexample to the claim as stated. With a pending error
`'boom'` carried and `session.step = 2` (as a nested router sharing the
session can set it), the route-backed layer at index 0 lies in the
resumption-skip region (line 236-238); its `continue` re-evaluates the
`while` condition, which exits on `match === true`, so the route-backed
layer is selected and processed despite the pending error, instead of
being skipped. -/
theorem c2_step_skip_route_cex :
    (next gpId { baseState with stack := [yesRouteLayer], url := slashX, step := 2 }
        (some boomE)).2
      = Outcome.processLayer yesRouteLayer (some boomE) slashX := rfl

/-- C2 (amended): while a truthy pending error is carried, a route-backed
layer at a scan position not inside the resumption-skip region is
ineligible: it never affects the scan beyond advancing the index (lines
254-258). The pending error survives the scan unchanged, and when the scan
exhausts the stack with the pending error, the step completes with exactly
that error handed to the terminal callback (line 265). -/
theorem c2_pending_error_skips_routes :
    (∀ (path : Str) (step : Nat) (l : MLayer) (rest : List MLayer) (idx : Nat)
        (le : Option Str),
      l.route = true → jsTruthy le = true → step ≤ idx + 1 →
      scanGo path step (l :: rest) idx le = scanGo path step rest (idx + 1) le) ∧
    (∀ (path : Str) (step : Nat) (ls : List MLayer) (idx : Nat) (le : Option Str),
      jsTruthy le = true →
      (scanGo path step ls idx le).layerError = le) ∧
    (∀ (gp : Str → Option Str) (s : HState) (arg : Option Str) (path : Str),
      jsTruthy (normErr arg) = true → normErr arg ≠ some routerSig →
      s.idx < s.stack.length →
      gp (restoreState s).url = some path →
      (scanGo path s.step (s.stack.drop s.idx) s.idx (normErr arg)).found = none →
      (next gp s arg).2 = Outcome.syncDone (normErr arg)) := by
  refine ⟨?_, fun path step ls idx le htr => scanGo_layerError_truthy path step ls idx le htr, ?_⟩
  · intro path step l rest idx le hroute htr hstep
    have hns : ¬ (idx + 1 < step) := by omega
    rcases hm : l.matchFn path with _ | _ | e <;>
      simp [scanGo, hns, hm, hroute, htr]
  · intro gp s arg path htr h hlt hgp hscan
    have h2 : ¬ (s.stack.length ≤ s.idx) := by omega
    have hle := scanGo_layerError_truthy path s.step (s.stack.drop s.idx) s.idx
      (normErr arg) htr
    simp [next, h, restoreState_stack, restoreState_idx, restoreState_step,
      h2, hgp, hscan, hle]

/-- C2, witness for the amended theorem: with a pending error and no skip
region, a matching route-backed layer is passed over and the scan result
carries the error through; a concrete exhausted scan completes with the
pending error. -/
theorem c2_pending_error_skips_routes_w :
    (scanGo slashX 0 [yesRouteLayer] 0 (some boomE)
      = scanGo slashX 0 [] 1 (some boomE)) ∧
    (next gpId { baseState with stack := [yesRouteLayer], url := slashX }
        (some boomE)).2 = Outcome.syncDone (some boomE) := by
  constructor
  · exact c2_pending_error_skips_routes.1 slashX 0 yesRouteLayer [] 0 (some boomE)
      rfl (by decide) (by decide)
  · exact c2_pending_error_skips_routes.2.2 gpId
      { baseState with stack := [yesRouteLayer], url := slashX } (some boomE) slashX
      (by decide) (by decide) (by decide) rfl rfl

/-- C3 (confirmed): a plain middleware layer with a non-empty mount path
handles the request only when the character of the pathname immediately
after the matched prefix is absent or '/'. A mid-segment match is rejected:
`trim_prefix` re-enters `next(layerError)` with the state unchanged and
does not invoke the handler (lines 296-300); otherwise the handler (or
error handler) is invoked (lines 322-326). -/
theorem c3_segment_boundary (s : HState) (le : Option Str) (lp path : Str)
    (hlp : lp ≠ []) :
    (∀ c, path[lp.length]? = some c → c ≠ '/' →
      prefixTrim s le lp path = (s, TOut.reenter le)) ∧
    ((path[lp.length]? = none ∨ path[lp.length]? = some '/') →
      (prefixTrim s le lp path).2 =
        if jsTruthy le then TOut.handleError le else TOut.handleRequest) := by
  have hlen : ¬ lp.length = 0 := by simpa using hlp
  constructor
  · intro c hc hcs
    simp [prefixTrim, hlen, hc, hcs]
  · intro hor
    rcases hor with h | h <;> simp [prefixTrim, hlen, h]

/-- C3, witness: `use('/foo', handler)` against a request to '/foobar' is
rejected ('b' follows the prefix), while '/foo/bar' and an exact '/foo'
are handled. -/
theorem c3_segment_boundary_w :
    prefixTrim { baseState with url := slashFoobar } none slashFoo slashFoobar
      = ({ baseState with url := slashFoobar }, TOut.reenter none) ∧
    (prefixTrim c4wState none slashFoo (slashFoo ++ slashBar)).2 = TOut.handleRequest := by
  constructor
  · exact (c3_segment_boundary { baseState with url := slashFoobar } none slashFoo
      slashFoobar (by decide)).1 'b' (by decide) (by decide)
  · simpa using (c3_segment_boundary c4wState none slashFoo (slashFoo ++ slashBar)
      (by decide)).2 (Or.inr (by decide))

/-- C5, counterexample to the claim as stated. A layer whose index was
already consumed per the context's step counter is supposed to be skipped;
but the skip (line 236-238) is a `continue` inside
`while (match !== true && ...)`, so when the already-consumed layer's match
is `true` the loop exits and the layer is selected and processed again. -/
theorem c5_rematch_cex :
    (next gpId { baseState with stack := [yesLayer], url := slashX, step := 2 } none).2
      = Outcome.processLayer yesLayer none slashX := rfl

/-- C5 (amended): in the resumption-skip region (`idx < session.step`), a
layer whose match is not exactly `true` is passed over without updating the
pending error; but a layer in the skip region whose match is `true`
terminates the scan and is selected again, so a layer can be matched and
processed twice for one context. -/
theorem c5_step_skip :
    (∀ (path : Str) (step : Nat) (l : MLayer) (rest : List MLayer) (idx : Nat)
        (le : Option Str),
      idx + 1 < step → l.matchFn path ≠ MatchResult.yes →
      scanGo path step (l :: rest) idx le = scanGo path step rest (idx + 1) le) ∧
    (∀ (path : Str) (step : Nat) (l : MLayer) (rest : List MLayer) (idx : Nat)
        (le : Option Str),
      idx + 1 < step → l.matchFn path = MatchResult.yes →
      scanGo path step (l :: rest) idx le = ⟨idx + 1, le, some l⟩) := by
  constructor
  · intro path step l rest idx le hs hm
    rcases hmr : l.matchFn path with _ | _ | e
    · exact absurd hmr hm
    · simp [scanGo, hs, hmr]
    · simp [scanGo, hs, hmr]
  · intro path step l rest idx le hs hm
    simp [scanGo, hs, hm]

/-- C5, witness: a non-matching layer inside the skip region is passed
over; a matching one is selected again. -/
theorem c5_step_skip_w :
    (scanGo slashX 3 [noMatchLayer] 0 none = scanGo slashX 3 [] 1 none) ∧
    (scanGo slashX 3 [yesLayer] 0 none = ⟨1, none, some yesLayer⟩) := by
  constructor
  · exact c5_step_skip.1 slashX 3 noMatchLayer [] 0 none (by decide) (by simp [noMatchLayer])
  · exact c5_step_skip.2 slashX 3 yesLayer [] 0 none (by decide) rfl

/-- C8 (confirmed): `next('router')` aborts the current router without an
error: the terminal callback is handed to the deferral primitive with no
error (`defer(done, null)`, lines 206-209), and neither the scan index nor
the step counter advances — no further layer of this router is scanned. -/
theorem c8_router_abort (gp : Str → Option Str) (s : HState) :
    (next gp s (some routerSig)).2 = Outcome.deferDone none ∧
    (next gp s (some routerSig)).1.idx = s.idx ∧
    (next gp s (some routerSig)).1.step = s.step :=
  ⟨rfl, rfl, rfl⟩

/-- C9 (confirmed): `next('route')` is not treated as an error: line
188-190 normalizes it to `null`, clearing the pending-error slot, so the
whole step behaves exactly as a continuation call with no error — the scan
of subsequent stack entries proceeds. -/
theorem c9_route_signal :
    normErr (some routeSig) = none ∧
    ∀ (gp : Str → Option Str) (s : HState),
      next gp s (some routeSig) = next gp s none :=
  ⟨rfl, fun _ _ => rfl⟩

/-- C4, counterexample to the claim as stated. When the mount path matches
the pathname exactly (`use('/foo', h)` against a request to '/foo'), the
trim leaves an empty remainder, so a leading slash is synthesized (lines
308-312): `baseUrl` becomes '/foo' and `url` becomes '/', whose
concatenation '/foo/' is not the original URL '/foo', even though the
prefix is trimmed and not yet restored. -/
theorem c4_exact_mount_cex :
    (prefixTrim cex4 none slashFoo slashFoo).1.baseUrl ++
      (prefixTrim cex4 none slashFoo slashFoo).1.url ≠ cex4.originalUrl := by
  decide

/-- C4 (amended): after a trim, `baseUrl` and `url` reconstruct
`originalUrl` up to separator bookkeeping at the boundary: dropping the
synthesized leading slash from `url` when `slashAdded` is set, and
re-inserting the trailing separator dropped from `baseUrl` when the
trimmed prefix ended in '/'. The unadjusted concatenation of the claim
holds exactly when the two adjustments cancel. -/
theorem c4_reconstruction (s : HState) (le : Option Str) (lp rest path : Str)
    (hlp : lp ≠ []) (hurl : s.url = lp ++ rest)
    (horig : s.parentUrl ++ s.url = s.originalUrl)
    (hsa : s.slashAdded = false)
    (hbound : path[lp.length]? = none ∨ path[lp.length]? = some '/') :
    (prefixTrim s le lp path).1.removed = lp ∧
    (prefixTrim s le lp path).1.originalUrl = s.originalUrl ∧
    (prefixTrim s le lp path).1.baseUrl ++
      ((if lp.getLast? = some '/' then ['/'] else []) ++
        (if (prefixTrim s le lp path).1.slashAdded
         then (prefixTrim s le lp path).1.url.drop 1
         else (prefixTrim s le lp path).1.url)) = s.originalUrl := by
  have hlen : ¬ lp.length = 0 := by simpa using hlp
  have hrest : s.url.drop lp.length = rest := by
    rw [hurl]; exact List.drop_left lp rest
  have hre : (prefixTrim s le lp path).1.removed = lp := by
    rcases hbound with hb | hb <;> simp [prefixTrim, hlen, hb]
  have hor2 : (prefixTrim s le lp path).1.originalUrl = s.originalUrl := by
    rcases hbound with hb | hb <;> simp [prefixTrim, hlen, hb]
  refine ⟨hre, hor2, ?_⟩
  have hTrim : (if lp.getLast? = some '/' then lp.dropLast else lp) ++
      (if lp.getLast? = some '/' then ['/'] else []) = lp := by
    by_cases hl : lp.getLast? = some '/'
    · simpa [hl] using List.dropLast_append_getLast? '/' (Option.mem_def.mpr hl)
    · simp [hl]
  rcases hbound with hb | hb <;>
    (simp [prefixTrim, hlen, hb, hrest, hsa]
     rw [← horig, hurl]
     simp only [← List.append_assoc]
     rw [List.append_assoc s.parentUrl, hTrim]
     by_cases hrh : rest.head? = some '/' <;> simp [hrh])

/-- C4, witness for the amended theorem: trimming mount prefix '/foo' from
a request to '/foo/bar'. -/
theorem c4_reconstruction_w :
    (prefixTrim c4wState none slashFoo (slashFoo ++ slashBar)).1.removed = slashFoo ∧
    (prefixTrim c4wState none slashFoo (slashFoo ++ slashBar)).1.baseUrl ++
      ((if slashFoo.getLast? = some '/' then ['/'] else []) ++
        (if (prefixTrim c4wState none slashFoo (slashFoo ++ slashBar)).1.slashAdded
         then (prefixTrim c4wState none slashFoo (slashFoo ++ slashBar)).1.url.drop 1
         else (prefixTrim c4wState none slashFoo (slashFoo ++ slashBar)).1.url))
      = c4wState.originalUrl := by
  have h := c4_reconstruction c4wState none slashFoo slashBar (slashFoo ++ slashBar)
    (by decide) rfl rfl rfl (Or.inr (by decide))
  exact ⟨h.1, h.2.2⟩

/-- C6, counterexample to the claim as stated. The dedup cache stores only
the most recent value per name (`called[name].match`), so within one
dispatch the sequence of captured values a, b, a for name 'id' re-runs the
registered callbacks for the pair (id, a) twice: the trace of fresh
callback runs is [(id,a), (id,b), (id,a)], violating "at most once per
unique (name, value) pair". -/
theorem c6_same_value_rerun_cex :
    ¬ ((c6run1.trace ++ c6run2.trace ++ c6run3.trace).count (idS, aV) ≤ 1) := by
  decide

/-- C6 (amended): reuse is keyed on the name's most recently cached match
value. Whenever the cache entry for `name` has `match` equal to the current
value, or carries a truthy non-'route' error, the registered callbacks are
not re-run (no fresh-run trace event): the cached value is restored into
the params and the cached error (if truthy) is propagated (lines 378-384).
At-most-once therefore holds per (name, most-recent-value), not per unique
(name, value) pair. -/
theorem c6_param_dedup (registry : Registry) (prms : Obj) (called : CalledMap)
    (name v : Str) (pc : PCalled) (cbs : List Cb)
    (hcache : alGet called name = some pc)
    (hreg : registry name = some cbs)
    (hval : alGet prms (JsKey.str name) = some v)
    (hhit : pc.matchV = v ∨ (jsTruthy pc.error = true ∧ pc.error ≠ some routeSig)) :
    (process_params registry [name] called prms).trace = [] ∧
    (process_params registry [name] called prms).err =
      (if jsTruthy pc.error then pc.error else none) ∧
    (process_params registry [name] called prms).prms = storeOpt prms name pc.value := by
  by_cases he : jsTruthy pc.error = true
  · have hcond : pc.matchV = v ∨ ¬ pc.error = some routeSig := by
      rcases hhit with h | ⟨h1, h2⟩
      · exact Or.inl h
      · exact Or.inr h2
    simp [process_params, paramLoopM, hcache, hreg, hval, he, hcond]
  · have hm : pc.matchV = v := by
      rcases hhit with h | ⟨h1, h2⟩
      · exact h
      · exact absurd h1 he
    simp [process_params, paramLoopM, hcache, hreg, hval, he, hm]

/-- C6, witness: a repeat occurrence of 'id' with the already-cached value
'a' emits no fresh callback run and restores the cached value. -/
theorem c6_param_dedup_w :
    (process_params regId [idS] [(idS, pcA)] [(JsKey.str idS, aV)]).trace = [] ∧
    (process_params regId [idS] [(idS, pcA)] [(JsKey.str idS, aV)]).err = none ∧
    (process_params regId [idS] [(idS, pcA)] [(JsKey.str idS, aV)]).prms
      = alSet [(JsKey.str idS, aV)] (JsKey.str idS) aV := by
  have h := c6_param_dedup regId [(JsKey.str idS, aV)] [(idS, pcA)] idS aV pcA
    [noopCb] rfl rfl rfl (Or.inl rfl)
  simpa [pcA, storeOpt] using h

/-- array-flatten distributes over list append. -/
theorem flatList_append (a b : List JsArg) :
    flatList (a ++ b) = flatList a ++ flatList b := by
  induction a with
  | nil => simp [flatList]
  | cons x xs ih => simp [flatList, ih, List.append_assoc]

/-- Flattening a list of function values is the identity. -/
theorem flatList_fns : ∀ (gs : List JsArg), (∀ g ∈ gs, ∃ n, g = JsArg.fnV n) →
    flatList gs = gs := by
  intro gs
  induction gs with
  | nil => intro _; rfl
  | cons g grest ih =>
    intro h
    obtain ⟨n, hn⟩ := h g (List.mem_cons_self g grest)
    subst hn
    simp [flatList, flat1, ih (fun a ha => h a (List.mem_cons_of_mem _ ha))]

/-- The validation/append loop pushes the layers for a prefix of callable
handlers and stops at the first non-callable with the pushes retained. -/
theorem useLoop_goods (path : JsArg) (caseS : Bool) (bad : JsArg)
    (tail : List JsArg) (hbad : isFn bad = false) :
    ∀ (goods : List JsArg) (st : List ULayer),
      (∀ g ∈ goods, isFn g = true) →
      useLoop path caseS (goods ++ bad :: tail) st
        = (st ++ goods.map (mkULayer path caseS), some UseErr.handlerNotFn) := by
  intro goods
  induction goods with
  | nil => intro st _; simp [useLoop, hbad]
  | cons g gs ih =>
    intro st hg
    have hgf : isFn g = true := hg g (List.mem_cons_self g gs)
    simp [useLoop, hgf,
      ih (st ++ [mkULayer path caseS g]) (fun a ha => hg a (List.mem_cons_of_mem _ ha)),
      List.append_assoc]

/-- C10 (confirmed): `use(path, ...handlers)` is not atomic on a
registration type error. Handlers are validated and appended one at a time
(lines 463-482), so when the resolved handlers are callable values followed
by a non-callable one, the layers for the leading handlers are already on
the router's stack at the moment the TypeError is raised. -/
theorem c10_use_not_atomic (caseS : Bool) (st : List ULayer) (p : Str)
    (goods : List JsArg) (bad : JsArg) (rest : List JsArg)
    (hg : ∀ g ∈ goods, ∃ n, g = JsArg.fnV n)
    (hbad : isFn bad = false) (hbadflat : flat1 bad = [bad]) :
    useM caseS st (JsArg.strV p :: (goods ++ bad :: rest))
      = (st ++ goods.map (mkULayer (JsArg.strV p) caseS),
         some UseErr.handlerNotFn) := by
  have hg' : ∀ g ∈ goods, isFn g = true := by
    intro g hgm; obtain ⟨n, hn⟩ := hg g hgm; rw [hn]; rfl
  have hcb : flatList (goods ++ bad :: rest)
      = goods ++ bad :: flatList rest := by
    simp [flatList_append, flatList_fns goods hg, flatList, hbadflat]
  have hne : (goods ++ bad :: flatList rest).isEmpty = false := by
    cases goods <;> rfl
  simp [useM, isFn, drill, hcb, hne,
    useLoop_goods (JsArg.strV p) caseS bad (flatList rest) hbad goods st hg']

/-- C10, witness: `use('/', goodFn, 5)` appends the layer for `goodFn`
and then throws; the already-appended layer remains on the stack. -/
theorem c10_use_not_atomic_w :
    useM false [] [JsArg.strV ['/'], JsArg.fnV 0, JsArg.other]
      = ([mkULayer (JsArg.strV ['/']) false (JsArg.fnV 0)],
         some UseErr.handlerNotFn) := by
  simpa using c10_use_not_atomic false [] ['/'] [JsArg.fnV 0] JsArg.other []
    (by intro g hgm; rw [List.mem_singleton] at hgm; exact ⟨0, hgm⟩)
    rfl (by simp [flat1])

/-! Association-list lemmas for the JS object model. -/

theorem alGet_alSet {κ α : Type} [DecidableEq κ] (o : List (κ × α)) (k k' : κ)
    (v : α) :
    alGet (alSet o k v) k' = if k' = k then some v else alGet o k' := by
  induction o with
  | nil =>
    by_cases h : k' = k
    · subst h; simp [alSet, alGet]
    · simp [alSet, alGet, h, Ne.symm h]
  | cons p o ih =>
    by_cases hp : p.1 = k
    · by_cases hk : k' = k
      · subst hk; simp [alSet, alGet, hp]
      · have hp' : ¬ p.1 = k' := by rw [hp]; exact Ne.symm hk
        simp [alSet, alGet, hp, hk, hp', Ne.symm hk]
    · by_cases hpk : p.1 = k'
      · have hk : ¬ k' = k := fun hh => hp (hpk.trans hh)
        simp [alSet, alGet, hp, hpk, hk]
      · simp [alSet, alGet, hp, hpk, ih]

theorem alGet_alDel {κ α : Type} [DecidableEq κ] (o : List (κ × α)) (k k' : κ) :
    alGet (alDel o k) k' = if k' = k then none else alGet o k' := by
  induction o with
  | nil => simp [alDel, alGet]
  | cons p o ih =>
    by_cases hp : p.1 = k
    · by_cases hk : k' = k
      · subst hk
        simp only [if_pos rfl] at ih ⊢
        simp [alDel, hp, ih]
      · have hp' : ¬ p.1 = k' := by rw [hp]; exact Ne.symm hk
        simp [alDel, alGet, hp, hk, hp', ih, Ne.symm hk]
    · by_cases hpk : p.1 = k'
      · have hk : ¬ k' = k := fun hh => hp (hpk.trans hh)
        simp [alDel, alGet, hp, hpk, hk]
      · simp [alDel, alGet, hp, hpk, ih]

theorem alGet_eq_none_iff {κ α : Type} [DecidableEq κ] (o : List (κ × α)) (k : κ) :
    alGet o k = none ↔ k ∉ o.map Prod.fst := by
  induction o with
  | nil => simp [alGet]
  | cons p o ih =>
    by_cases hp : p.1 = k
    · simp [alGet, hp]
    · simp [alGet, hp, ih, Ne.symm hp]

theorem alSet_keys {κ α : Type} [DecidableEq κ] (o : List (κ × α)) (k : κ) (v : α) :
    (alSet o k v).map Prod.fst =
      if (alGet o k).isNone then o.map Prod.fst ++ [k] else o.map Prod.fst := by
  induction o with
  | nil => simp [alSet, alGet]
  | cons p o ih =>
    by_cases hp : p.1 = k
    · simp [alSet, alGet, hp]
    · rcases ho : alGet o k with _ | w <;> simp [alSet, alGet, hp, ho, ih]

theorem alSet_nodup {κ α : Type} [DecidableEq κ] (o : List (κ × α)) (k : κ) (v : α)
    (h : (o.map Prod.fst).Nodup) : ((alSet o k v).map Prod.fst).Nodup := by
  rw [alSet_keys]
  rcases ho : alGet o k with _ | w
  · have hk : k ∉ o.map Prod.fst := (alGet_eq_none_iff o k).mp ho
    simp [List.nodup_append, h, hk]
  · simp [h]

theorem alDel_keys_sublist {κ α : Type} [DecidableEq κ] (o : List (κ × α)) (k : κ) :
    List.Sublist ((alDel o k).map Prod.fst) (o.map Prod.fst) := by
  induction o with
  | nil => simp [alDel]
  | cons p o ih =>
    by_cases hp : p.1 = k
    · simpa [alDel, hp] using ih.trans (List.sublist_cons_self p.1 (o.map Prod.fst))
    · simpa [alDel, hp] using ih.cons₂ p.1

theorem alDel_nodup {κ α : Type} [DecidableEq κ] (o : List (κ × α)) (k : κ)
    (h : (o.map Prod.fst).Nodup) : ((alDel o k).map Prod.fst).Nodup :=
  h.sublist (alDel_keys_sublist o k)

/-- For a source object with unique keys, `mixin` reads back as: the source
binding when present, else the destination binding. -/
theorem mixin_get : ∀ (src : Obj), (src.map Prod.fst).Nodup →
    ∀ (dst : Obj) (k : JsKey),
      alGet (mixin dst src) k =
        match alGet src k with
        | some v => some v
        | none => alGet dst k := by
  intro src
  induction src with
  | nil => intro _ dst k; simp [mixin, alGet]
  | cons p src ih =>
    intro hnd dst k
    rw [List.map_cons, List.nodup_cons] at hnd
    have hstep : mixin dst (p :: src) = mixin (alSet dst p.1 p.2) src := rfl
    rw [hstep, ih hnd.2 (alSet dst p.1 p.2) k]
    by_cases hk : k = p.1
    · subst hk
      have h1 : alGet src p.1 = none := (alGet_eq_none_iff src p.1).mpr hnd.1
      simp [h1, alGet, alGet_alSet]
    · rcases hs : alGet src k with _ | w <;>
        simp [hs, alGet, alGet_alSet, hk, Ne.symm hk]

theorem numObjFrom_length (vs : List Str) : ∀ k, (numObjFrom k vs).length = vs.length := by
  induction vs with
  | nil => intro k; rfl
  | cons v vs ih => intro k; simp [numObjFrom, ih]

theorem numObjFrom_get (vs : List Str) : ∀ (k t : Nat),
    alGet (numObjFrom k vs) (JsKey.num t)
      = if k ≤ t ∧ t < k + vs.length then vs.get? (t - k) else none := by
  induction vs with
  | nil =>
    intro k t
    simp only [numObjFrom, alGet, List.length_nil]
    rw [if_neg (by omega)]
  | cons v vs ih =>
    intro k t
    by_cases hk : k = t
    · subst hk
      have hc : k ≤ k ∧ k < k + (vs.length + 1) := ⟨Nat.le_refl k, by omega⟩
      simp [numObjFrom, alGet, hc, Nat.sub_self]
    · by_cases h2 : k + 1 ≤ t ∧ t < k + 1 + vs.length
      · have h3 : k ≤ t ∧ t < k + (vs.length + 1) := by omega
        obtain ⟨d, hd⟩ : ∃ d, t - k = d + 1 := ⟨t - k - 1, by omega⟩
        have hd2 : t - (k + 1) = d := by omega
        simp [numObjFrom, alGet, hk, ih, h2, h3, hd, hd2]
      · have h3 : ¬ (k ≤ t ∧ t < k + (vs.length + 1)) := by omega
        simp [numObjFrom, alGet, hk, ih, h2, h3]

theorem numObj_get (vs : List Str) (t : Nat) :
    alGet (numObj vs) (JsKey.num t) = vs.get? t := by
  rw [numObj, numObjFrom_get]
  by_cases h : t < vs.length
  · rw [if_pos ⟨Nat.zero_le t, by omega⟩]
    simp
  · rw [if_neg (by omega)]
    exact (List.get?_eq_none.mpr (by omega)).symm

theorem numObjFrom_get_str (vs : List Str) : ∀ (k : Nat) (s0 : Str),
    alGet (numObjFrom k vs) (JsKey.str s0) = none := by
  induction vs with
  | nil => intro k s0; rfl
  | cons v vs ih => intro k s0; simp [numObjFrom, alGet, ih]

theorem numObjFrom_nodup (vs : List Str) :
    ∀ k, ((numObjFrom k vs).map Prod.fst).Nodup := by
  induction vs with
  | nil => intro k; simp [numObjFrom]
  | cons v vs ih =>
    intro k
    simp only [numObjFrom, List.map_cons, List.nodup_cons]
    refine ⟨?_, ih (k + 1)⟩
    intro hmem
    have hnone : alGet (numObjFrom (k + 1) vs) (JsKey.num k) = none := by
      rw [numObjFrom_get, if_neg (by omega)]
    exact ((alGet_eq_none_iff _ _).mp hnone) hmem

theorem firstGapAux_ge (o : Obj) (n : Nat)
    (ho : ∀ j, alHas o (JsKey.num j) = true ↔ j < n) :
    ∀ (fuel i : Nat), i ≤ n → n + 1 - i ≤ fuel → firstGapAux o fuel i = n := by
  intro fuel
  induction fuel with
  | zero => intro i h1 h2; omega
  | succ fuel ih =>
    intro i h1 h2
    by_cases hi : i < n
    · rw [firstGapAux, if_pos ((ho i).mpr hi)]
      exact ih (i + 1) (by omega) (by omega)
    · have hin : i = n := by omega
      subst hin
      have hfalse : ¬ (alHas o (JsKey.num i) = true) := by rw [ho]; omega
      rw [firstGapAux, if_neg hfalse]

/-- The JS gap search on a contiguous numeric object stops exactly at its
length, one past the highest numeric index. -/
theorem firstGap_numObj (vs : List Str) : firstGap (numObj vs) = vs.length := by
  have ho : ∀ j, alHas (numObj vs) (JsKey.num j) = true ↔ j < vs.length := by
    intro j
    rw [alHas, numObj_get]
    rcases h : vs.get? j with _ | w
    · have := List.get?_eq_none.mp h
      simp [this]
    · have := (List.get?_eq_some.mp h).1
      simp [this]
  rw [firstGap]
  exact firstGapAux_ge (numObj vs) vs.length ho ((numObj vs).length + 1) 0
    (Nat.zero_le _) (by rw [numObj, numObjFrom_length vs 0]; omega)

/-- Pointwise effect of one re-indexing iteration at index `j`: the key `j`
is deleted when `j < o`, the key `j + o` receives the value read at `j`
(kept unchanged when that read is `undefined`), all other numeric keys are
untouched. -/
theorem shiftStep_get (o j : Nat) (ho : 1 ≤ o) (p : Obj) (u : Nat) :
    alGet (shiftStep o j p) (JsKey.num u)
      = if u = j ∧ j < o then none
        else if u = j + o then
          (match alGet p (JsKey.num j) with
           | some v => some v
           | none => alGet p (JsKey.num u))
        else alGet p (JsKey.num u) := by
  rcases hpj : alGet p (JsKey.num j) with _ | v
  · by_cases hjo : j < o
    · by_cases hu : u = j
      · subst hu
        simp [shiftStep, hpj, hjo, alGet_alDel]
      · by_cases hu2 : u = j + o <;>
          simp [shiftStep, hpj, hjo, alGet_alDel, hu, hu2]
    · by_cases hu2 : u = j + o <;>
        by_cases hu : u = j <;>
        simp [shiftStep, hpj, hjo, hu, hu2]
  · by_cases hjo : j < o
    · by_cases hu : u = j
      · subst hu
        have hne : ¬ (u = u + o) := by omega
        simp [shiftStep, hpj, hjo, alGet_alDel, alGet_alSet]
      · by_cases hu2 : u = j + o <;>
          simp [shiftStep, hpj, hjo, alGet_alDel, alGet_alSet, hu, hu2]
    · by_cases hu2 : u = j + o <;>
        by_cases hu : u = j <;>
        simp [shiftStep, hpj, hjo, alGet_alSet, hu, hu2]

/-- One re-indexing iteration advances the loop characterization from
`j + 1` pending iterations to `j`. -/
theorem shiftGetSpec_step (p : Obj) (o j t : Nat) (ho : 1 ≤ o) :
    shiftGetSpec (shiftStep o j p) o j t = shiftGetSpec p o (j + 1) t := by
  have ho' : ¬ (o = 0) := by omega
  by_cases h1 : o ≤ t
  · by_cases h2 : t - o < j
    · have e1 : ¬ (t - o = j ∧ j < o) := by omega
      have e2 : ¬ (t - o = j + o) := by omega
      have e3 : ¬ (t = j ∧ j < o) := by omega
      have e4 : ¬ (t = j + o) := by omega
      have h2' : t - o < j + 1 := by omega
      simp [shiftGetSpec, shiftStep_get o j ho p, h1, h2, h2', e1, e2, e3, e4]
    · by_cases h2' : t - o = j
      · have ht : t = j + o := by omega
        subst ht
        have g1 : ¬ (j + o = j ∧ j < o) := by omega
        have g2 : ¬ (j + o - o < j) := by omega
        have g3 : ¬ (j + o < o) := by omega
        have g4 : j + o - o = j := by omega
        simp [shiftGetSpec, shiftStep_get o j ho p, g1, g2, g3, g4, h1, ho']
      · have f2 : ¬ (t < o) := by omega
        have fr1 : ¬ (t - o < j + 1) := by omega
        have e3 : ¬ (t = j ∧ j < o) := by omega
        have e4 : ¬ (t = j + o) := by omega
        simp [shiftGetSpec, shiftStep_get o j ho p, h1, h2, h2', f2, fr1, e3, e4]
  · have h1' : t < o := by omega
    by_cases h4 : t < j
    · have h4' : t < j + 1 := by omega
      simp [shiftGetSpec, shiftStep_get o j ho p, h1, h1', h4, h4']
    · by_cases h5 : t = j
      · subst h5
        simp [shiftGetSpec, shiftStep_get o t ho p, h1, h1']
      · have e6 : ¬ (t < j + 1) := by omega
        have e7 : ¬ (t = j + o) := by omega
        simp [shiftGetSpec, shiftStep_get o j ho p, h1, h1', h4, h5, e6, e7]

/-- The re-indexing loop agrees with its pointwise characterization. -/
theorem shiftLoop_get (o : Nat) (ho : 1 ≤ o) : ∀ (j : Nat) (p : Obj) (t : Nat),
    alGet (shiftLoop o j p) (JsKey.num t) = shiftGetSpec p o j t := by
  intro j
  induction j with
  | zero =>
    intro p t
    simp [shiftLoop, shiftGetSpec]
  | succ j ih =>
    intro p t
    rw [shiftLoop, ih (shiftStep o j p) t, shiftGetSpec_step p o j t ho]

theorem shiftStep_nodup (o j : Nat) (p : Obj) (h : (p.map Prod.fst).Nodup) :
    ((shiftStep o j p).map Prod.fst).Nodup := by
  rcases hpj : alGet p (JsKey.num j) with _ | v
  · by_cases hjo : j < o
    · simp only [shiftStep, hpj, if_pos hjo]
      exact alDel_nodup _ _ h
    · simp only [shiftStep, hpj, if_neg hjo]
      exact h
  · by_cases hjo : j < o
    · simp only [shiftStep, hpj, if_pos hjo]
      exact alDel_nodup _ _ (alSet_nodup _ _ _ h)
    · simp only [shiftStep, hpj, if_neg hjo]
      exact alSet_nodup _ _ _ h

theorem shiftLoop_nodup (o : Nat) : ∀ (j : Nat) (p : Obj),
    (p.map Prod.fst).Nodup → ((shiftLoop o j p).map Prod.fst).Nodup := by
  intro j
  induction j with
  | zero => intro p h; exact h
  | succ j ih => intro p h; exact ih _ (shiftStep_nodup o j p h)

/-- Full pointwise description of `mergeParams` on contiguous numeric
parameter objects: parent values sit at their own indices, the layer's
values are offset past the parent's contiguous run. -/
theorem mergeParams_numObj_get (ps qs : List Str) (hp : ps ≠ []) (hq : qs ≠ [])
    (t : Nat) :
    alGet (mergeParams (numObj qs) (numObj ps)) (JsKey.num t)
      = if ps.length ≤ t ∧ t - ps.length < qs.length
        then qs.get? (t - ps.length)
        else ps.get? t := by
  have hol : 1 ≤ ps.length := List.length_pos.mpr hp
  have hq0 : alHas (numObj qs) (JsKey.num 0) = true := by
    rw [alHas, numObj_get]
    rcases qs with _ | ⟨x, xs⟩
    · exact absurd rfl hq
    · rfl
  have hp0 : alHas (numObj ps) (JsKey.num 0) = true := by
    rw [alHas, numObj_get]
    rcases ps with _ | ⟨x, xs⟩
    · exact absurd rfl hp
    · rfl
  have hndq : ((shiftLoop ps.length qs.length (numObj qs)).map Prod.fst).Nodup :=
    shiftLoop_nodup ps.length qs.length (numObj qs) (numObjFrom_nodup qs 0)
  have hndp : ((numObj ps).map Prod.fst).Nodup := numObjFrom_nodup ps 0
  have hmain : mergeParams (numObj qs) (numObj ps)
      = mixin (mixin [] (numObj ps))
          (shiftLoop ps.length qs.length (numObj qs)) := by
    simp [mergeParams, hq0, hp0, firstGap_numObj]
  rw [hmain]
  rw [mixin_get _ hndq (mixin [] (numObj ps)) (JsKey.num t)]
  rw [shiftLoop_get ps.length hol qs.length (numObj qs) t]
  by_cases hcond : ps.length ≤ t ∧ t - ps.length < qs.length
  · rw [if_pos hcond]
    simp only [shiftGetSpec, if_pos hcond]
    rw [numObj_get]
    rcases hgw : qs.get? (t - ps.length) with _ | w
    · exact absurd (List.get?_eq_none.mp hgw) (by omega)
    · simp [hgw]
  · rw [if_neg hcond]
    have hsh : shiftGetSpec (numObj qs) ps.length qs.length t = none := by
      simp only [shiftGetSpec, if_neg hcond]
      by_cases hb : t < ps.length ∧ t < qs.length
      · rw [if_pos hb]
      · rw [if_neg hb, numObj_get]
        exact List.get?_eq_none.mpr (by omega)
    rw [hsh]
    rw [mixin_get _ hndp [] (JsKey.num t), numObj_get]
    rcases hgp : ps.get? t with _ | w <;> simp [hgp, alGet]

/-- C7, counterexample to the claim as stated. The offset used by
`mergeParams` is the parent's first numeric gap (`while (o in parent) o++`,
lines 584-587), not one past the parent's highest numeric index. With
parent `{0: a, 2: c}` (highest index 2, first gap 1) and layer params
`{0: b, 1: d}`, the layer entries are shifted by 1 to indices 1 and 2, and
the layer's value d overwrites the parent's value c at index 2: the merged
object is `{0: a, 1: b, 2: d}`, so the parent's value c is lost — not
"both sets of values at distinct indices with no positional collision". -/
theorem c7_sparse_parent_cex :
    cV ∉ (mergeParams childParams sparseParent).map Prod.snd ∧
    alGet (mergeParams childParams sparseParent) (JsKey.num 2) = some dV := by
  decide

/-- C7 (amended): the merge offsets the layer's numeric entries by the
length of the parent's initial contiguous run of numeric indices — which
equals one past the parent's highest numeric index exactly when the
parent's numeric keys are contiguous from 0. When both objects' numeric
keys are contiguous from 0 (values `ps` for the parent, `qs` for the
layer), the merged result preserves both sets at distinct indices: parent
entries at their indices, layer entries offset past them. -/
theorem c7_merge_offset (ps qs : List Str) (hp : ps ≠ []) (hq : qs ≠ []) :
    (∀ j, j < ps.length →
      alGet (mergeParams (numObj qs) (numObj ps)) (JsKey.num j) = ps.get? j) ∧
    (∀ j, j < qs.length →
      alGet (mergeParams (numObj qs) (numObj ps)) (JsKey.num (ps.length + j))
        = qs.get? j) := by
  constructor
  · intro j hj
    rw [mergeParams_numObj_get ps qs hp hq j, if_neg (by omega)]
  · intro j hj
    rw [mergeParams_numObj_get ps qs hp hq (ps.length + j),
      if_pos ⟨by omega, by omega⟩]
    congr 1
    omega

/-- C7, witness: the spec's own example — parent capturing numeric
parameter 0 = "a" and layer capturing 0 = "b" merge to distinct indices
0 = "a", 1 = "b". -/
theorem c7_merge_offset_w :
    alGet (mergeParams (numObj [bV]) (numObj [aV])) (JsKey.num 0) = some aV ∧
    alGet (mergeParams (numObj [bV]) (numObj [aV])) (JsKey.num 1) = some bV := by
  have h := c7_merge_offset [aV] [bV] (by decide) (by decide)
  exact ⟨by simpa using h.1 0 (by decide), by simpa using h.2 0 (by decide)⟩

end BasicRouter
